import Mathlib

/-!
Verification development for the org-rs headline parser (src/lib.rs).

The source builds one regex

  (?mx) ^(\*+)\s (?:(\S+)\s \[\#(.)\]\s)? (.*?)\s* (:(?:[a-zA-Z0-9_@\#%]+:)+)? $

and, for every capture produced by captures_iter over the input text,
pushes a Headline with level = number of stars, priority = group 3,
title = trimmed group 4 (with a recognized-keyword fallback when group 2
is absent), and tags split out of group 5.  The embedding below models the
text as a list of characters and the regex by an explicit matcher with the
leftmost-first preference semantics of the rust regex crate: the optional
keyword-priority group prefers to match, the title is lazy, the whitespace
run and the tag block are greedy, and the dollar anchor holds at the end of
the text or directly before a newline character.
-/

namespace Org

/-- Whitespace per the Unicode White_Space property, the class matched by
the regex escape for whitespace and removed by rust string trim. -/
def isWs (c : Char) : Bool :=
  let n := c.toNat
  n == 0x09 || n == 0x0A || n == 0x0B || n == 0x0C || n == 0x0D || n == 0x20 ||
  n == 0x85 || n == 0xA0 || n == 0x1680 ||
  (decide (0x2000 ≤ n) && decide (n ≤ 0x200A)) ||
  n == 0x2028 || n == 0x2029 || n == 0x202F || n == 0x205F || n == 0x3000

/-- Characters allowed inside a tag token: the class [a-zA-Z0-9_@#%]. -/
def tagChar (c : Char) : Bool :=
  c.isAlphanum || c == '_' || c == '@' || c == '#' || c == '%'

/-- The multiline dollar anchor: end of text or directly before a newline. -/
def atLineEnd : List Char → Bool
  | [] => true
  | c :: _ => c == '\n'

/-- One raw capture of the headline regex: group 1 as its length, groups 2
and 3 (present together, because both sit inside the same optional group),
group 4 uncut, and group 5 uncut. -/
structure RawMatch where
  level : Nat
  kwPrio : Option (List Char × Char)
  titleRaw : List Char
  tagsRaw : Option (List Char)
deriving DecidableEq

/-- The jointly optional keyword and priority group: a nonempty run of
non-whitespace characters, one whitespace, an opening bracket, a hash, one
non-newline character, a closing bracket, one whitespace.  A shorter token
cannot match because the character after it would be non-whitespace, so the
group either matches with the maximal token or not at all. -/
def matchG (s : List Char) : Option ((List Char × Char) × List Char) :=
  let tok := s.takeWhile (fun c => !isWs c)
  let r := s.dropWhile (fun c => !isWs c)
  if tok.isEmpty then none else
  match r with
  | w :: '[' :: '#' :: c :: ']' :: w2 :: r2 =>
    if isWs w && c != '\n' && isWs w2 then some ((tok, c), r2) else none
  | _ => none

/-- The chain of colon-terminated tag tokens: for each further group the
tag token and the remainder after its closing colon, in order.  Each token
is the maximal run of tag characters, and it must be nonempty. -/
def tagChainAux : Nat → List Char → List (List Char × List Char)
  | 0, _ => []
  | fuel + 1, s =>
    let run := s.takeWhile tagChar
    let r := s.dropWhile tagChar
    if run.isEmpty then [] else
    match r with
    | ':' :: r2 => (run, r2) :: tagChainAux fuel r2
    | _ => []

/-- Greedy choice of how many tag groups to take: the longest prefix of the
chain whose endpoint sits at a line end wins.  Returns the raw consumed
characters (without the leading colon) and the remainder. -/
def pickTags : List (List Char × List Char) → Option (List Char × List Char)
  | [] => none
  | (t, r) :: tl =>
    match pickTags tl with
    | some (raw, r2) => some (t ++ ':' :: raw, r2)
    | none => if atLineEnd r then some (t ++ [':'], r) else none

/-- The optional tag block followed by the dollar anchor.  The block is
preferred when it can match and must itself end at a line end; otherwise
the anchor alone is checked. -/
def tryTagsEnd (s : List Char) : Option (Option (List Char) × List Char) :=
  match s with
  | ':' :: s2 =>
    match pickTags (tagChainAux s2.length s2) with
    | some (raw, r) => some (some (':' :: raw), r)
    | none => if atLineEnd s then some (none, s) else none
  | _ => if atLineEnd s then some (none, s) else none

/-- The greedy whitespace run before the optional tag block: consuming more
whitespace is preferred, backing off one character at a time. -/
def tryAfterTitle : List Char → Option (Option (List Char) × List Char)
  | [] => tryTagsEnd []
  | c :: cs =>
    if isWs c then
      match tryAfterTitle cs with
      | some r => some r
      | none => tryTagsEnd (c :: cs)
    else tryTagsEnd (c :: cs)

/-- The lazy title: the shortest run of non-newline characters after which
whitespace, optional tags and the dollar anchor match.  The accumulator
holds the title read so far, reversed. -/
def tryTitle (acc : List Char) : List Char → Option (List Char × Option (List Char) × List Char)
  | [] =>
    match tryAfterTitle [] with
    | some (tags, r) => some (acc.reverse, tags, r)
    | none => none
  | c :: cs =>
    match tryAfterTitle (c :: cs) with
    | some (tags, r) => some (acc.reverse, tags, r)
    | none => if c == '\n' then none else tryTitle (c :: acc) cs

/-- Number of leading star characters of a line. -/
def countLeadingStars (s : List Char) : Nat :=
  (s.takeWhile (fun c => c == '*')).length

/-- Attempt of the whole headline regex at a line start: one or more stars,
one whitespace character, the optional keyword-priority group, then lazy
title, greedy whitespace, optional tags and the dollar anchor.  Returns the
capture and the remainder of the text after the match. -/
def matchAt (s : List Char) : Option (RawMatch × List Char) :=
  let stars := s.takeWhile (fun c => c == '*')
  let s1 := s.dropWhile (fun c => c == '*')
  if stars.isEmpty then none else
  match s1 with
  | [] => none
  | c :: s2 =>
    if isWs c then
      match matchG s2 with
      | some (kp, s3) =>
        match tryTitle [] s3 with
        | some (t, tags, r) =>
          some ({ level := stars.length, kwPrio := some kp, titleRaw := t, tagsRaw := tags }, r)
        | none => none
      | none =>
        match tryTitle [] s2 with
        | some (t, tags, r) =>
          some ({ level := stars.length, kwPrio := none, titleRaw := t, tagsRaw := tags }, r)
        | none => none
    else none

/-- Drop the current line up to and including its newline terminator. -/
def dropThroughNewline (s : List Char) : List Char :=
  match s.dropWhile (fun c => c != '\n') with
  | [] => []
  | _ :: t => t

/-- The captures_iter loop: at each line start try the regex; on success
emit the capture and resume after the match (whose tail is empty or starts
with a newline), otherwise skip the line.  The fuel only bounds the number
of iterations; every step consumes at least one character, so text length
plus one is always enough. -/
def scanAux : Nat → List Char → List RawMatch
  | 0, _ => []
  | fuel + 1, s =>
    if s.isEmpty then [] else
    match matchAt s with
    | some (m, r) => m :: scanAux fuel (dropThroughNewline r)
    | none => scanAux fuel (dropThroughNewline s)

/-- All raw headline captures of a text, in document order. -/
def matchHeadlines (text : List Char) : List RawMatch :=
  scanAux (text.length + 1) text

/-- Rust str trim on a character list: drop whitespace from the front, then
from the back. -/
def trim (s : List Char) : List Char :=
  ((s.dropWhile isWs).reverse.dropWhile isWs).reverse

/-- The fallback loop over the recognized keywords: the first one that is a
prefix of the title wins (lines 113 to 118 of the source). -/
def findKeyword : List (List Char) → List Char → Option (List Char)
  | [], _ => none
  | kw :: rest, title =>
    if kw.isPrefixOf title then some kw else findKeyword rest title

/-- Keyword fallback resolution (lines 110 to 125 of the source): when the
loop finds a keyword, strip it from the front of the title and trim. -/
def resolveKeyword (kws : List (List Char)) (title : List Char) :
    Option (List Char) × List Char :=
  match findKeyword kws title with
  | some kwd => (some kwd, trim (title.drop kwd.length))
  | none => (none, title)

/-- Stub for the unimplemented greater elements of the source. -/
inductive GreaterElement
  | Block
  | Drawer
  | DynamicBlock
  | Footnote
  | Inlinetask
  | PlainList
  | PropertyDrawer
  | Table
deriving DecidableEq

/-- A section holds the (never populated) content units. -/
structure Section where
  contents : List GreaterElement
deriving DecidableEq

/-- The headline record of the source.  The source field named after the
section keyword is called sect here.  Recursive, hence an inductive. -/
inductive Headline where
  | mk (level : Nat) (keyword : Option (List Char)) (priority : Option Char)
      (title : List Char) (tags : List (List Char)) (sect : Option Section)
      (headlines : List Headline)

def Headline.level : Headline → Nat
  | .mk l _ _ _ _ _ _ => l

def Headline.keyword : Headline → Option (List Char)
  | .mk _ k _ _ _ _ _ => k

def Headline.priority : Headline → Option Char
  | .mk _ _ p _ _ _ _ => p

def Headline.title : Headline → List Char
  | .mk _ _ _ t _ _ _ => t

def Headline.tags : Headline → List (List Char)
  | .mk _ _ _ _ ts _ _ => ts

def Headline.sect : Headline → Option Section
  | .mk _ _ _ _ _ s _ => s

def Headline.headlines : Headline → List Headline
  | .mk _ _ _ _ _ _ hs => hs

/-- The document record of the source. -/
structure Document where
  first_section : Option Section
  headlines : List Headline

/-- The body of the captures loop (lines 104 to 138 of the source): build
one headline from one raw capture.  The source stores the star count cast
to u32 (line 131), a truncating cast, so the stored level is the count
reduced modulo 2 to the 32. -/
def mkHeadline (todo_keywords : List (List Char)) (m : RawMatch) : Headline :=
  let priority := m.kwPrio.map Prod.snd
  let title0 := trim m.titleRaw
  let kt : Option (List Char) × List Char :=
    match m.kwPrio.map Prod.fst with
    | none => resolveKeyword todo_keywords title0
    | some kwd => (some kwd, title0)
  let tags : List (List Char) :=
    match m.tagsRaw with
    | some x => ((x.drop 1).dropLast).splitOn ':'
    | none => []
  Headline.mk (m.level % 2 ^ 32) kt.1 priority kt.2 tags none []

/-- The parse method of DocumentParser (lines 91 to 148 of the source):
match all headlines, build the flat list, and return it with no first
section.  The error type is never produced. -/
def DocumentParser.parse (todo_keywords : List (List Char)) (text : List Char) :
    Except Unit Document :=
  Except.ok
    { first_section := none
      headlines := (matchHeadlines text).map (mkHeadline todo_keywords) }

/-- The suffix t of s sits at a line start: it is all of s, or the dropped
prefix ends with a newline. -/
def LineReach (s t : List Char) : Prop :=
  ∃ p, s = p ++ t ∧ (p = [] ∨ p.getLast? = some '\n')

/-- A single line made of 2 to the 32 stars followed by one space: the
star count at which the u32 cast of the source wraps around to zero. -/
def bigStarLine : List Char :=
  List.replicate (2 ^ 32) '*' ++ [' ']

theorem dropWhile_head?_not (p : Char → Bool) (s : List Char) (c : Char)
    (h : (s.dropWhile p).head? = some c) : p c = false := by
  induction s with
  | nil => simp at h
  | cons a t ih =>
    rw [List.dropWhile_cons] at h
    by_cases hp : p a
    · rw [if_pos hp] at h
      exact ih h
    · rw [if_neg hp] at h
      simp only [List.head?_cons, Option.some.injEq] at h
      rw [← h]
      exact Bool.eq_false_iff.mpr hp

theorem getLast?_append_right (l1 l2 : List Char) (h : l2 ≠ []) :
    (l1 ++ l2).getLast? = l2.getLast? := by
  induction l1 with
  | nil => rfl
  | cons a t ih =>
    rw [List.cons_append]
    cases hne : t ++ l2 with
    | nil =>
      rcases List.append_eq_nil.mp hne with ⟨-, h2⟩
      exact absurd h2 h
    | cons b u =>
      rw [List.getLast?_cons_cons, ← hne, ih]

theorem getLast?_dropWhile (p : Char → Bool) (s : List Char)
    (h : s.dropWhile p ≠ []) : (s.dropWhile p).getLast? = s.getLast? := by
  induction s with
  | nil => simp at h
  | cons a t ih =>
    rw [List.dropWhile_cons] at h ⊢
    by_cases hp : p a
    · rw [if_pos hp] at h ⊢
      have ht : t ≠ [] := by
        intro he
        rw [he] at h
        simp at h
      rw [ih h]
      cases t with
      | nil => exact absurd rfl ht
      | cons b u => rw [List.getLast?_cons_cons]
    · rw [if_neg hp]

theorem trim_head?_not_ws (s : List Char) (c : Char) (h : (trim s).head? = some c) :
    isWs c = false := by
  unfold trim at h
  rw [List.head?_reverse] at h
  have hne : (s.dropWhile isWs).reverse.dropWhile isWs ≠ [] := by
    intro he
    rw [he] at h
    simp at h
  rw [getLast?_dropWhile _ _ hne, List.getLast?_reverse] at h
  exact dropWhile_head?_not _ _ _ h

theorem trim_getLast?_not_ws (s : List Char) (c : Char) (h : (trim s).getLast? = some c) :
    isWs c = false := by
  unfold trim at h
  rw [List.getLast?_reverse] at h
  exact dropWhile_head?_not _ _ _ h

theorem dropWhile_eq_self_of_head? (p : Char → Bool) (l : List Char)
    (h : ∀ c, l.head? = some c → p c = false) : l.dropWhile p = l := by
  cases l with
  | nil => rfl
  | cons a t =>
    have := h a rfl
    simp [List.dropWhile_cons, this]

theorem trim_trim (s : List Char) : trim (trim s) = trim s := by
  have h1 : (trim s).dropWhile isWs = trim s :=
    dropWhile_eq_self_of_head? _ _ (fun c hc => trim_head?_not_ws s c hc)
  have h2 : (trim s).reverse.dropWhile isWs = (trim s).reverse := by
    apply dropWhile_eq_self_of_head?
    intro c hc
    rw [List.head?_reverse] at hc
    exact trim_getLast?_not_ws s c hc
  show (((trim s).dropWhile isWs).reverse.dropWhile isWs).reverse = trim s
  rw [h1, h2, List.reverse_reverse]

/-- Claim C1.  The code returns the scenario-1 headlines as two sibling
roots with empty child lists: the level-2 headline is not a child of the
level-1 headline, the hierarchy reorganization being left as a todo in the
source.  This theorem evaluates the parser at the failing input. -/
theorem c1_parse_output_is_flat :
    DocumentParser.parse [] ("* Hello!\n** This is a second heading\n".toList) =
      Except.ok
        { first_section := none
          headlines :=
            [Headline.mk 1 none none ("Hello!".toList) [] none [],
             Headline.mk 2 none none ("This is a second heading".toList) [] none []] } := by
  rfl

/-- Claim C2.  For the headline-free text hello the code returns an empty
headline list and no first section at all, while the claim requires a
preamble holding the entire text.  This theorem evaluates the parser at the
failing input. -/
theorem c2_no_preamble_ever :
    DocumentParser.parse [] ("hello".toList) =
      Except.ok { first_section := none, headlines := [] } := by
  rfl

/-- Claim C3: parsing the scenario-2 line with recognized keywords TODO and
DONE yields one headline of level 4, explicit keyword TODO taken from the
grammar group (visible in the raw capture), priority A, title COMMENT
Title, and tags tag and a2%. -/
theorem c3_scenario2 :
    matchHeadlines ("**** TODO [#A] COMMENT Title :tag:a2%:".toList) =
      [RawMatch.mk 4 (some ("TODO".toList, 'A')) ("COMMENT Title".toList)
        (some (":tag:a2%:".toList))] ∧
    DocumentParser.parse ["TODO".toList, "DONE".toList]
        ("**** TODO [#A] COMMENT Title :tag:a2%:".toList) =
      Except.ok
        { first_section := none
          headlines :=
            [Headline.mk 4 (some ("TODO".toList)) (some 'A') ("COMMENT Title".toList)
              ["tag".toList, "a2%".toList] none []] } := by
  exact ⟨rfl, rfl⟩

/-- Claim C4, counterexample: with recognized keyword TODO and title
TODOlist, the fallback extracts the keyword although it is not followed by
a word boundary, leaving title list.  The claim states such a keyword is
not extracted, so the claim as stated is false on the code. -/
theorem c4_counterexample :
    DocumentParser.parse [("TODO".toList)] ("* TODOlist".toList) =
      Except.ok
        { first_section := none
          headlines := [Headline.mk 1 (some ("TODO".toList)) none ("list".toList) [] none []] } := by
  rfl

/-- Claim C4, amended: the keyword fallback scans the recognized keywords
in caller-supplied order and picks the first one that is an exact
case-sensitive prefix of the title, with no word-boundary requirement,
stripping the keyword from the front of the title and trimming the
remainder. -/
theorem c4_fallback_plain_prefix (kws : List (List Char)) (title : List Char) :
    resolveKeyword kws title =
      match kws.find? (fun k => k.isPrefixOf title) with
      | some kw => (some kw, trim (title.drop kw.length))
      | none => (none, title) := by
  have hfind : findKeyword kws title = kws.find? (fun k => k.isPrefixOf title) := by
    induction kws with
    | nil => rfl
    | cons k tl ih =>
      rw [findKeyword, List.find?_cons]
      by_cases hk : k.isPrefixOf title
      · simp [hk]
      · simp [hk, ih]
  unfold resolveKeyword
  rw [hfind]

/-- Claim C5.  The regex accepts any whitespace after the stars, newline
and tab included, so a line of stars followed directly by a line terminator
or a tab starts a match that takes its title from the following text: both
failing inputs below produce a level-1 headline titled X although the star
and the X sit on different physical lines (or are separated by a tab).
This theorem evaluates the parser at the failing inputs. -/
theorem c5_newline_or_tab_after_stars :
    DocumentParser.parse [] ("*\nX".toList) =
      Except.ok
        { first_section := none
          headlines := [Headline.mk 1 none none ("X".toList) [] none []] } ∧
    DocumentParser.parse [] ("*\tX".toList) =
      Except.ok
        { first_section := none
          headlines := [Headline.mk 1 none none ("X".toList) [] none []] } := by
  exact ⟨rfl, rfl⟩

/-- Claim C6, counterexample: a headline line whose text after the stars
begins with a non-whitespace token followed by a space but no priority
cookie does not get that token as an explicit keyword; the token stays in
the title.  The claim as stated is false on the code. -/
theorem c6_counterexample :
    DocumentParser.parse [] ("* TODO Title".toList) =
      Except.ok
        { first_section := none
          headlines := [Headline.mk 1 none none ("TODO Title".toList) [] none []] } := by
  rfl

/-- Claim C7: for every input text and keyword configuration the parser
returns ok, and when the matcher finds no headline the document is the ok
value with an empty headline list rather than an error. -/
theorem c7_parse_always_ok (kws : List (List Char)) (text : List Char) :
    (DocumentParser.parse kws text).isOk = true ∧
      (matchHeadlines text = [] →
        DocumentParser.parse kws text =
          Except.ok { first_section := none, headlines := [] }) := by
  constructor
  · rfl
  · intro h
    simp [DocumentParser.parse, h]

/-- Witness for claim C7 at the concrete headline-free input x. -/
theorem c7_parse_always_ok_witness :
    DocumentParser.parse ([] : List (List Char)) ("x".toList) =
      Except.ok { first_section := none, headlines := [] } :=
  (c7_parse_always_ok [] ("x".toList)).2 rfl

/-- Claim C9: parsing is deterministic, two results of parse on the same
text and keyword configuration are equal. -/
theorem c9_deterministic (kws : List (List Char)) (text : List Char) (d1 d2 : Document)
    (h1 : DocumentParser.parse kws text = Except.ok d1)
    (h2 : DocumentParser.parse kws text = Except.ok d2) : d1 = d2 := by
  rw [h1] at h2
  exact Except.ok.inj h2

/-- Witness for claim C9 at a concrete one-headline input. -/
theorem c9_deterministic_witness :
    ({ first_section := none
       headlines := [Headline.mk 1 none none ("a".toList) [] none []] } : Document) =
      { first_section := none
        headlines := [Headline.mk 1 none none ("a".toList) [] none []] } :=
  c9_deterministic [] ("* a".toList) _ _ rfl rfl

/-- Claim C10: every headline title produced by parse is already trimmed,
so trimming it again changes nothing: no leading and no trailing
whitespace remains. -/
theorem c10_title_trimmed (kws : List (List Char)) (text : List Char) (d : Document)
    (h : Headline) (hd : DocumentParser.parse kws text = Except.ok d)
    (hm : h ∈ d.headlines) : trim h.title = h.title := by
  simp only [DocumentParser.parse, Except.ok.injEq] at hd
  subst hd
  obtain ⟨m, hm', rfl⟩ := List.mem_map.mp hm
  have hx : ∃ x, (mkHeadline kws m).title = trim x := by
    cases hk : m.kwPrio with
    | none =>
      cases hfk : findKeyword kws (trim m.titleRaw) with
      | none =>
        exact ⟨m.titleRaw, by simp [mkHeadline, resolveKeyword, Headline.title, hk, hfk]⟩
      | some kw =>
        exact ⟨(trim m.titleRaw).drop kw.length,
          by simp [mkHeadline, resolveKeyword, Headline.title, hk, hfk]⟩
    | some kp => exact ⟨m.titleRaw, by simp [mkHeadline, Headline.title, hk]⟩
  obtain ⟨x, hxe⟩ := hx
  rw [hxe, trim_trim]

theorem tagChainAux_suffix (fuel : Nat) :
    ∀ s t r, (t, r) ∈ tagChainAux fuel s → r.IsSuffix s := by
  induction fuel with
  | zero =>
    intro s t r h
    simp [tagChainAux] at h
  | succ n ih =>
    intro s t r h
    simp only [tagChainAux] at h
    split at h
    · simp at h
    · split at h
      · next r2 heq =>
        have hs : s.takeWhile tagChar ++ s.dropWhile tagChar = s :=
          List.takeWhile_append_dropWhile tagChar s
        rw [heq] at hs
        rcases List.mem_cons.mp h with hhd | htl
        · simp only [Prod.mk.injEq] at hhd
          refine ⟨s.takeWhile tagChar ++ [':'], ?_⟩
          rw [hhd.2, List.append_assoc, List.singleton_append, hs]
        · exact (ih r2 t r htl).trans ⟨s.takeWhile tagChar ++ [':'],
            by rw [List.append_assoc, List.singleton_append, hs]⟩
      · simp at h

theorem pickTags_mem (ch : List (List Char × List Char)) (raw r : List Char)
    (h : pickTags ch = some (raw, r)) : ∃ t, (t, r) ∈ ch := by
  induction ch generalizing raw with
  | nil => simp [pickTags] at h
  | cons a tl ih =>
    obtain ⟨t0, r0⟩ := a
    simp only [pickTags] at h
    split at h
    · next raw2 r2 heq =>
      simp only [Option.some.injEq, Prod.mk.injEq] at h
      obtain ⟨m, hm⟩ := ih raw2 (by rw [heq, h.2])
      exact ⟨m, List.mem_cons_of_mem _ hm⟩
    · split at h
      · simp only [Option.some.injEq, Prod.mk.injEq] at h
        exact ⟨t0, by rw [← h.2]; exact List.mem_cons_self _ _⟩
      · simp at h

theorem tryTagsEnd_suffix (s : List Char) (tg : Option (List Char)) (r : List Char)
    (h : tryTagsEnd s = some (tg, r)) : r.IsSuffix s := by
  simp only [tryTagsEnd] at h
  split at h
  · next s2 =>
    split at h
    · next raw r2 heq =>
      simp only [Option.some.injEq, Prod.mk.injEq] at h
      obtain ⟨t, ht⟩ := pickTags_mem _ raw r2 heq
      have hsuf : r2.IsSuffix s2 := tagChainAux_suffix s2.length s2 t r2 ht
      rw [← h.2]
      exact hsuf.trans (List.suffix_cons ':' s2)
    · split at h
      · simp only [Option.some.injEq, Prod.mk.injEq] at h
        rw [← h.2]
      · simp at h
  · split at h
    · simp only [Option.some.injEq, Prod.mk.injEq] at h
      rw [← h.2]
    · simp at h

theorem tryAfterTitle_suffix (s : List Char) :
    ∀ tg r, tryAfterTitle s = some (tg, r) → r.IsSuffix s := by
  induction s with
  | nil =>
    intro tg r h
    exact tryTagsEnd_suffix [] tg r h
  | cons c cs ih =>
    intro tg r h
    simp only [tryAfterTitle] at h
    split at h
    · split at h
      · next v heq =>
        obtain ⟨tg2, r2⟩ := v
        rw [h] at heq
        exact (ih tg r heq).trans (List.suffix_cons c cs)
      · exact tryTagsEnd_suffix _ tg r h
    · exact tryTagsEnd_suffix _ tg r h

theorem tryTitle_suffix (s : List Char) :
    ∀ acc t tg r, tryTitle acc s = some (t, tg, r) → r.IsSuffix s := by
  induction s with
  | nil =>
    intro acc t tg r h
    have he : tryTitle acc [] = some (acc.reverse, none, []) := rfl
    rw [he] at h
    simp only [Option.some.injEq, Prod.mk.injEq] at h
    rw [← h.2.2]
  | cons c cs ih =>
    intro acc t tg r h
    have hun : tryTitle acc (c :: cs) =
        match tryAfterTitle (c :: cs) with
        | some (tags, r) => some (acc.reverse, tags, r)
        | none => if c == '\n' then none else tryTitle (c :: acc) cs := rfl
    rw [hun] at h
    split at h
    · next tags2 r2 heq =>
      simp only [Option.some.injEq, Prod.mk.injEq] at h
      rw [← h.2.2]
      exact tryAfterTitle_suffix _ tags2 r2 heq
    · split at h
      · simp at h
      · exact (ih (c :: acc) t tg r h).trans (List.suffix_cons c cs)

theorem matchAt_spec (s : List Char) (m : RawMatch) (r : List Char)
    (h : matchAt s = some (m, r)) :
    m.level = countLeadingStars s ∧ 1 ≤ m.level ∧ r.IsSuffix s := by
  simp only [matchAt] at h
  split at h
  · simp at h
  · next hstars =>
    split at h
    · simp at h
    · next c s2 heq1 =>
      have hs : s.takeWhile (fun c => c == '*') ++ s.dropWhile (fun c => c == '*') = s :=
        List.takeWhile_append_dropWhile _ s
      rw [heq1] at hs
      have hcs2 : (c :: s2).IsSuffix s := ⟨s.takeWhile (fun c => c == '*'), hs⟩
      have hs2 : s2.IsSuffix s := (List.suffix_cons c s2).trans hcs2
      have hlen : 1 ≤ (s.takeWhile (fun c => c == '*')).length := by
        rcases he : s.takeWhile (fun c => c == '*') with - | ⟨a, t⟩
        · rw [he] at hstars
          simp at hstars
        · simp
      split at h
      · split at h
        · next kp s3 heqG =>
          split at h
          · next t tags r0 heqT =>
            simp only [Option.some.injEq, Prod.mk.injEq] at h
            obtain ⟨hm, hr⟩ := h
            subst hr
            refine ⟨by rw [← hm]; rfl, by rw [← hm]; exact hlen, ?_⟩
            have hsufG : s3.IsSuffix s2 := by
              simp only [matchG] at heqG
              split at heqG
              · simp at heqG
              · split at heqG
                · next w cc w2 r2 heqd =>
                  split at heqG
                  · simp only [Option.some.injEq, Prod.mk.injEq] at heqG
                    have hd : s2.takeWhile (fun c => !isWs c) ++
                        s2.dropWhile (fun c => !isWs c) = s2 :=
                      List.takeWhile_append_dropWhile _ s2
                    rw [heqd] at hd
                    rw [← heqG.2]
                    exact ⟨s2.takeWhile (fun c => !isWs c) ++ [w, '[', '#', cc, ']', w2],
                      by simpa using hd⟩
                  · simp at heqG
                · simp at heqG
            exact ((tryTitle_suffix s3 [] t tags r0 heqT).trans hsufG).trans hs2
          · simp at h
        · split at h
          · next t tags r0 heqT =>
            simp only [Option.some.injEq, Prod.mk.injEq] at h
            obtain ⟨hm, hr⟩ := h
            subst hr
            exact ⟨by rw [← hm]; rfl, by rw [← hm]; exact hlen,
              (tryTitle_suffix s2 [] t tags r0 heqT).trans hs2⟩
          · simp at h
      · simp at h

theorem scanAux_nil (fuel : Nat) : scanAux fuel [] = [] := by
  cases fuel <;> simp [scanAux]

theorem dropThroughNewline_spec (s : List Char) :
    dropThroughNewline s = [] ∨
      ∃ p, s = p ++ dropThroughNewline s ∧ p.getLast? = some '\n' := by
  unfold dropThroughNewline
  cases heq : s.dropWhile (fun c => c != '\n') with
  | nil => exact Or.inl rfl
  | cons a t =>
    right
    have ha : (fun c => c != '\n') a = false :=
      dropWhile_head?_not _ s a (by rw [heq]; rfl)
    have ha' : a = '\n' := by simpa using ha
    have hs : s.takeWhile (fun c => c != '\n') ++ s.dropWhile (fun c => c != '\n') = s :=
      List.takeWhile_append_dropWhile _ s
    rw [heq] at hs
    refine ⟨s.takeWhile (fun c => c != '\n') ++ [a], ?_, ?_⟩
    · rw [List.append_assoc, List.singleton_append, hs]
    · rw [List.getLast?_concat, ha']

theorem lineReach_refl (s : List Char) : LineReach s s :=
  ⟨[], by simp, Or.inl rfl⟩

theorem lineReach_trans {a b c : List Char} (h1 : LineReach a b) (h2 : LineReach b c) :
    LineReach a c := by
  obtain ⟨p1, rfl, hp1⟩ := h1
  obtain ⟨p2, rfl, hp2⟩ := h2
  refine ⟨p1 ++ p2, by simp, ?_⟩
  rcases hp2 with h | h
  · subst h
    simpa using hp1
  · right
    have hne : p2 ≠ [] := by
      intro he
      rw [he] at h
      simp at h
    rw [getLast?_append_right _ _ hne]
    exact h

theorem lineReach_dropThroughNewline {s r : List Char} (hsuf : r.IsSuffix s) :
    dropThroughNewline r = [] ∨ LineReach s (dropThroughNewline r) := by
  rcases dropThroughNewline_spec r with h | ⟨p, hp, hlast⟩
  · exact Or.inl h
  · right
    obtain ⟨c0, hc0⟩ := hsuf
    refine ⟨c0 ++ p, by rw [← hc0, List.append_assoc, ← hp], Or.inr ?_⟩
    have hne : p ≠ [] := by
      intro he
      rw [he] at hlast
      simp at hlast
    rw [getLast?_append_right _ _ hne]
    exact hlast

theorem scanAux_mem (fuel : Nat) :
    ∀ s m, m ∈ scanAux fuel s → ∃ t r, LineReach s t ∧ matchAt t = some (m, r) := by
  induction fuel with
  | zero =>
    intro s m h
    simp [scanAux] at h
  | succ n ih =>
    intro s m h
    simp only [scanAux] at h
    split at h
    · simp at h
    · split at h
      · next m0 r0 heqA =>
        rcases List.mem_cons.mp h with hhd | htl
        · subst hhd
          exact ⟨s, r0, lineReach_refl s, heqA⟩
        · have hsuf : r0.IsSuffix s := (matchAt_spec s m0 r0 heqA).2.2
          rcases lineReach_dropThroughNewline hsuf with hnil | hLR
          · rw [hnil, scanAux_nil] at htl
            simp at htl
          · obtain ⟨t, r, hreach, hmatch⟩ := ih _ m htl
            exact ⟨t, r, lineReach_trans hLR hreach, hmatch⟩
      · next heqA =>
        rcases lineReach_dropThroughNewline (List.suffix_refl s) with hnil | hLR
        · rw [hnil, scanAux_nil] at h
          simp at h
        · obtain ⟨t, r, hreach, hmatch⟩ := ih _ m h
          exact ⟨t, r, lineReach_trans hLR hreach, hmatch⟩

theorem takeWhile_replicate_append (p : Char → Bool) (a : Char) (ha : p a = true)
    (n : Nat) (l : List Char) :
    (List.replicate n a ++ l).takeWhile p = List.replicate n a ++ l.takeWhile p := by
  induction n with
  | zero => simp
  | succ k ih => simp [List.replicate_succ, List.takeWhile_cons, ha, ih]

theorem dropWhile_replicate_append (p : Char → Bool) (a : Char) (ha : p a = true)
    (n : Nat) (l : List Char) :
    (List.replicate n a ++ l).dropWhile p = l.dropWhile p := by
  induction n with
  | zero => simp
  | succ k ih => simp [List.replicate_succ, List.dropWhile_cons, ha, ih]

theorem takeWhile_stars_bigStarLine :
    bigStarLine.takeWhile (fun c => c == '*') = List.replicate (2 ^ 32) '*' := by
  unfold bigStarLine
  rw [takeWhile_replicate_append _ _ rfl,
    show [' '].takeWhile (fun c => c == '*') = [] from rfl, List.append_nil]

theorem matchAt_bigStarLine :
    matchAt bigStarLine = some (RawMatch.mk (2 ^ 32) none [] none, []) := by
  have hpow : (2 : Nat) ^ 32 = 4294967295 + 1 := by norm_num
  have hA := takeWhile_stars_bigStarLine
  have hB : bigStarLine.dropWhile (fun c => c == '*') = [' '] := by
    unfold bigStarLine
    rw [dropWhile_replicate_append _ _ rfl]
    rfl
  have hne : (List.replicate (2 ^ 32) '*').isEmpty = false := by
    rw [hpow, List.replicate_succ]
    rfl
  simp only [matchAt]
  rw [hA, hB, hne, List.length_replicate]
  rfl

theorem matchHeadlines_bigStarLine :
    matchHeadlines bigStarLine = [RawMatch.mk (2 ^ 32) none [] none] := by
  have hpow : (2 : Nat) ^ 32 = 4294967295 + 1 := by norm_num
  have hstep : ∀ (f : Nat) (s : List Char), scanAux (f + 1) s =
      if s.isEmpty then [] else
      match matchAt s with
      | some (m, r) => m :: scanAux f (dropThroughNewline r)
      | none => scanAux f (dropThroughNewline s) := fun f s => rfl
  have hne : bigStarLine.isEmpty = false := by
    unfold bigStarLine
    rw [hpow, List.replicate_succ]
    rfl
  unfold matchHeadlines
  rw [hstep, matchAt_bigStarLine, hne]
  show RawMatch.mk (2 ^ 32) none [] none ::
      scanAux bigStarLine.length (dropThroughNewline []) =
    [RawMatch.mk (2 ^ 32) none [] none]
  rw [show dropThroughNewline [] = ([] : List Char) from rfl, scanAux_nil]

/-- Claim C8, counterexample: on a line of 2 to the 32 stars followed by a
space, the u32 cast wraps and the parser stores level 0, although the line
has 2 to the 32 leading marker characters; the exact-count claim is false
on the code at this input. -/
theorem c8_counterexample_u32_wrap :
    DocumentParser.parse [] bigStarLine =
      Except.ok
        { first_section := none
          headlines := [Headline.mk 0 none none [] [] none []] } ∧
    countLeadingStars bigStarLine = 2 ^ 32 := by
  constructor
  · unfold DocumentParser.parse
    rw [matchHeadlines_bigStarLine]
    rfl
  · unfold countLeadingStars
    rw [takeWhile_stars_bigStarLine, List.length_replicate]

/-- Claim C8, amended: for every headline produced by parse, the stored
level equals the number of leading star characters of the line-start
suffix of the text at which the regex matched, reduced modulo 2 to the 32
by the u32 cast, and the raw star count there is at least one. -/
theorem c8_level_mod_u32 (kws : List (List Char)) (text : List Char) (d : Document)
    (h : Headline) (hd : DocumentParser.parse kws text = Except.ok d)
    (hm : h ∈ d.headlines) :
    ∃ s r m, LineReach text s ∧ matchAt s = some (m, r) ∧
      1 ≤ countLeadingStars s ∧ h.level = countLeadingStars s % 2 ^ 32 := by
  simp only [DocumentParser.parse, Except.ok.injEq] at hd
  subst hd
  obtain ⟨m, hm', rfl⟩ := List.mem_map.mp hm
  obtain ⟨s, r, hreach, hmatch⟩ := scanAux_mem _ _ _ hm'
  obtain ⟨hlv, hpos, -⟩ := matchAt_spec _ _ _ hmatch
  refine ⟨s, r, m, hreach, hmatch, ?_, ?_⟩
  · rw [← hlv]
    exact hpos
  · have hlevel : (mkHeadline kws m).level = m.level % 2 ^ 32 := by
      simp [mkHeadline, Headline.level]
    rw [hlevel, hlv]

/-- Witness for claim C8 at a concrete two-star input. -/
theorem c8_level_mod_u32_witness :
    ∃ s r m, LineReach ("** a".toList) s ∧ matchAt s = some (m, r) ∧
      1 ≤ countLeadingStars s ∧
      (Headline.mk 2 none none ("a".toList) [] none []).level = countLeadingStars s % 2 ^ 32 :=
  c8_level_mod_u32 [] ("** a".toList)
    { first_section := none
      headlines := [Headline.mk 2 none none ("a".toList) [] none []] }
    (Headline.mk 2 none none ("a".toList) [] none []) rfl (List.Mem.head _)

/-- Claim C6, amended: in the explicit grammar group the keyword and the
priority cookie are required together, so with no recognized keywords
configured a parsed headline carries a keyword exactly when it carries a
priority. -/
theorem c6_keyword_priority_together (text : List Char) (d : Document) (h : Headline)
    (hd : DocumentParser.parse [] text = Except.ok d) (hm : h ∈ d.headlines) :
    h.keyword.isSome = h.priority.isSome := by
  simp only [DocumentParser.parse, Except.ok.injEq] at hd
  subst hd
  obtain ⟨m, hm', rfl⟩ := List.mem_map.mp hm
  cases hk : m.kwPrio with
  | none =>
    simp [mkHeadline, resolveKeyword, findKeyword, Headline.keyword, Headline.priority, hk]
  | some kp =>
    simp [mkHeadline, Headline.keyword, Headline.priority, hk]

/-- Witness for claim C6 at a concrete input with keyword and priority. -/
theorem c6_keyword_priority_together_witness :
    (Headline.mk 1 (some ("K".toList)) (some 'A') ("T".toList) [] none []).keyword.isSome =
      (Headline.mk 1 (some ("K".toList)) (some 'A') ("T".toList) [] none []).priority.isSome :=
  c6_keyword_priority_together ("* K [#A] T".toList)
    { first_section := none
      headlines := [Headline.mk 1 (some ("K".toList)) (some 'A') ("T".toList) [] none []] }
    (Headline.mk 1 (some ("K".toList)) (some 'A') ("T".toList) [] none []) rfl
    (List.Mem.head _)

/-- Witness for claim C10 at a concrete input. -/
theorem c10_title_trimmed_witness :
    trim (Headline.mk 1 none none ("a".toList) [] none []).title =
      (Headline.mk 1 none none ("a".toList) [] none []).title :=
  c10_title_trimmed [] ("* a".toList)
    { first_section := none
      headlines := [Headline.mk 1 none none ("a".toList) [] none []] }
    (Headline.mk 1 none none ("a".toList) [] none []) rfl (List.Mem.head _)

end Org
